import Mathlib

/-!
# Verification of the subtitle timing and cue-synthesis core

Shallow embedding of the word-timing estimator, sentence segmenter,
sentence grouper and subtitle cue synthesizer of `src/main.py`.
Float arithmetic of the source is modelled over `ℚ`; Python lists become
`List`, dictionary rows become structures, and the one fallible spot
(indexing `sentence_word_groups[i + 1][0]`, which can raise `IndexError`)
becomes an `Option` result.  Python string primitives (`split`, `strip`,
`lower`, `in`, `join`) are embedded as structurally recursive functions
over `String.data`; whitespace is modelled by `Char.isWhitespace`.
-/

namespace ShortVideo

/-- Accumulating splitter behind `pySplit`: `acc` is the current token,
reversed.  Empty tokens are dropped, as Python `str.split()` does. -/
def splitWsAux : List Char → List Char → List String
  | [], acc => if acc.isEmpty then [] else [String.mk acc.reverse]
  | c :: r, acc =>
    if c.isWhitespace then
      (if acc.isEmpty then [] else [String.mk acc.reverse]) ++ splitWsAux r []
    else
      splitWsAux r (c :: acc)

/-- Python `text.split()`: split on whitespace runs, dropping empty pieces. -/
def pySplit (s : String) : List String :=
  splitWsAux s.data []

/-- Drop matching characters from both ends of a character list
(the effect of Python `str.strip`). -/
def dropEnds (p : Char → Bool) (l : List Char) : List Char :=
  ((l.dropWhile p).reverse.dropWhile p).reverse

/-- Python `s.strip()`. -/
def pyStrip (s : String) : String :=
  String.mk (dropEnds Char.isWhitespace s.data)

/-- Python `s.strip(chars)` for an explicit character set. -/
def pyStripChars (cs : List Char) (s : String) : String :=
  String.mk (dropEnds (fun c => cs.contains c) s.data)

/-- Python `s.lower()`. -/
def pyLower (s : String) : String :=
  String.mk (s.data.map Char.toLower)

/-- Python `c in s` for a single character `c`. -/
def pyContains (s : String) (c : Char) : Bool :=
  s.data.contains c

/-- Python `" ".join(l)`. -/
def pyJoin : List String → String
  | [] => ""
  | [w] => w
  | w :: w' :: ws => w ++ " " ++ pyJoin (w' :: ws)

/-- The `short_words` set of `analyze_speech_pattern` (src/main.py:188). -/
def short_words : List String :=
  ["the", "a", "an", "and", "or", "but", "in", "on", "at", "to", "for", "of", "with", "by"]

/-- Complexity multiplier of one word (src/main.py:196-206): the word is
lowercased, stripped of the punctuation set `.,!?;:"`, then classified. -/
def complexityOf (word : String) : ℚ :=
  let wl := pyStripChars ['.', ',', '!', '?', ';', ':', '"'] (pyLower word)
  if short_words.contains wl then 3/10
  else if wl.length ≤ 3 then 3/10
  else if wl.length ≤ 5 then 5/10
  else if wl.length ≤ 8 then 8/10
  else 12/10

/-- Pause multiplier taken from the previous word (src/main.py:208-212).
The source tests `any(punc in words[i-1] for punc in the pair comma/semicolon)`: substring
containment anywhere in the previous word, not only at its end. -/
def pauseMultiplier (prev : String) : ℚ :=
  if pyContains prev ',' || pyContains prev ';' then 13/10
  else if pyContains prev '.' || pyContains prev '!' || pyContains prev '?' then 16/10
  else 1

/-- A `{word, start, end}` timing row (`end` is a Lean keyword, hence `endTime`). -/
structure WordTiming where
  word : String
  start : ℚ
  endTime : ℚ
deriving DecidableEq

/-- The pause multiplier actually applied: `1.0` at index 0 (the source
guards with `i > 0`), otherwise `pauseMultiplier` of the previous word. -/
def pauseOf : Option String → ℚ
  | none => 1
  | some p => pauseMultiplier p

/-- The `word_duration` of one loop iteration (src/main.py:214-217):
`base * complexity * pause`, clamped so `current_time + word_duration`
never exceeds `duration - 0.1`. -/
def stepDuration (base duration : ℚ) (w : String) (prev : Option String) (current : ℚ) : ℚ :=
  let wd0 := base * complexityOf w * pauseOf prev
  if duration - 1/10 < current + wd0 then duration - current - 1/10 else wd0

/-- Main loop of `analyze_speech_pattern` (src/main.py:195-231): `prev` is the
previously emitted word (`none` at index 0), `current` is `current_time`;
the `0.05` inter-word gap is skipped after the final word. -/
def analyzeAux (base duration : ℚ) : List String → Option String → ℚ → List WordTiming
  | [], _, _ => []
  | w :: rest, prev, current =>
    let wd := stepDuration base duration w prev current
    let next := if rest.isEmpty then current + wd else current + wd + 1/20
    ⟨w, current, current + wd⟩ :: analyzeAux base duration rest (some w) next

/-- Embedding of `analyze_speech_pattern(text, duration)` (src/main.py:175-233). -/
def analyze_speech_pattern (text : String) (duration : ℚ) : List WordTiming :=
  let words := pySplit text
  if words.isEmpty then []
  else analyzeAux (duration / (words.length : ℚ)) duration words none (1/10)

/-- The wrapper `generate_word_timings` (src/main.py:235-241). -/
def generate_word_timings (text : String) (duration : ℚ) : List WordTiming :=
  if (pySplit text).isEmpty then [] else analyze_speech_pattern text duration

/-- A sentence-terminal character of `split_into_sentences`. -/
def isTermPunct (c : Char) : Bool :=
  c = '.' || c = '!' || c = '?'

/-- Walk behind the lookbehind regex split of src/main.py:246:
`acc` is the current piece, reversed; a separator is a maximal whitespace
run whose preceding character is `.`, `!` or `?`. -/
def splitSentencesAux : List Char → List Char → List (List Char)
  | [], acc => [acc.reverse]
  | c :: rest, acc =>
    if c.isWhitespace && (match acc with
        | p :: _ => isTermPunct p
        | [] => false) then
      acc.reverse :: splitSentencesAux (rest.dropWhile Char.isWhitespace) []
    else
      splitSentencesAux rest (c :: acc)
termination_by l _ => l.length
decreasing_by
  · simp only [List.length_cons]
    exact Nat.lt_succ_of_le (List.dropWhile_sublist _).length_le
  · simp

/-- Embedding of `split_into_sentences(text)` (src/main.py:243-247). -/
def split_into_sentences (text : String) : List String :=
  let sentences := (splitSentencesAux (pyStrip text).data []).map String.mk
  (sentences.filter (fun s => 5 < (pyStrip s).length)).map pyStrip

/-- One timed display event of the subtitle document. -/
structure Cue where
  startT : ℚ
  endT : ℚ
  text : String
deriving DecidableEq

/-- Inline override opening the karaoke highlight (src/main.py:328). -/
def highlightOpen : String := "\x7b\\c&H00FFFF&\\b1\x7d"

/-- Inline override closing the karaoke highlight (src/main.py:328). -/
def highlightClose : String := "\x7b\\c&HFFFFFF&\\b0\x7d"

/-- Karaoke frame text: the whole sentence with word `i` highlighted
(src/main.py:322-332). -/
def karaokeText (ws : List WordTiming) (i : Nat) : String :=
  pyJoin (ws.enum.map (fun p =>
    if p.1 = i then highlightOpen ++ p.2.word ++ highlightClose else p.2.word))

/-- Karaoke cues of one sentence group (src/main.py:309-333): one cue per
word, ending 0.001s before the next word starts, the last one at the
window end `e` of the group. -/
def karaokeGroupCues (ws : List WordTiming) (e : ℚ) : List Cue :=
  ws.enum.map (fun p =>
    { startT := p.2.start
      endT := match ws.get? (p.1 + 1) with
        | some nxt => nxt.start - 1/1000
        | none => e
      text := karaokeText ws p.1 })

/-- Typewriter cues of one sentence group (src/main.py:335-347): same
boundaries as karaoke, text is the word prefix `0..i`. -/
def typewriterGroupCues (ws : List WordTiming) (e : ℚ) : List Cue :=
  ws.enum.map (fun p =>
    { startT := p.2.start
      endT := match ws.get? (p.1 + 1) with
        | some nxt => nxt.start - 1/1000
        | none => e
      text := pyJoin ((ws.take (p.1 + 1)).map WordTiming.word) })

/-- Fade style override of the grouped path (src/main.py:353). -/
def fadeTag : String := "\x7b\\fad(300,300)\x7d"

/-- Bounce style override of the grouped path (src/main.py:356). -/
def bounceTag : String :=
  "\x7b\\move(384,550,384,450,0,500)\\t(0,250,\\fscx110\\fscy110)\\t(250,500,\\fscx100\\fscy100)\x7d"

/-- Cues of one non-empty sentence group under the selected effect
(src/main.py:309-358).  The final `else` of the source covers `static`,
`fade`, `bouncing` *and any other effect string*. -/
def groupCues (effect : String) (ws : List WordTiming) (e : ℚ) : List Cue :=
  if effect = "karaoke" then karaokeGroupCues ws e
  else if effect = "typewriter" then typewriterGroupCues ws e
  else
    match ws with
    | [] => []
    | w0 :: _ =>
      let sentence_text := pyJoin (ws.map WordTiming.word)
      if effect = "fade" then [⟨w0.start, e, fadeTag ++ sentence_text⟩]
      else if effect = "bouncing" then [⟨w0.start, e, bounceTag ++ sentence_text⟩]
      else [⟨w0.start, e, sentence_text⟩]

/-- The value `video_end = last end + 2.0` (src/main.py:285); the
caller guarantees `word_timings` is non-empty, so the default is inert. -/
def videoEnd (wts : List WordTiming) : ℚ :=
  ((wts.getLast?).map WordTiming.endTime).getD 0 + 2

/-- The `sentence_end_times` list (src/main.py:288-296): each group ends when the
first word of the next group starts; the last group ends at `video_end`.
The source indexes `sentence_word_groups[i + 1][0]` without guarding
against an empty next group — that `IndexError` is modelled by `none`. -/
def sentenceEndTimes : List (List WordTiming) → ℚ → Option (List ℚ)
  | [], _ => some []
  | [_], v => some [v]
  | _ :: g2 :: rest, v =>
    match g2.head? with
    | none => none
    | some w => (sentenceEndTimes (g2 :: rest) v).map (fun es => w.start :: es)

/-- Grouped cue synthesis (src/main.py:283-358): zip the groups with their
end times, skip groups with empty word lists, dispatch on the effect. -/
def effectCues (effect : String) (groups : List (List WordTiming)) (v : ℚ) :
    Option (List Cue) :=
  (sentenceEndTimes groups v).map (fun ends =>
    (groups.zip ends).flatMap (fun p =>
      if p.1.isEmpty then [] else groupCues effect p.1 p.2))

/-- Fade override of the ungrouped fallback path (src/main.py:390). -/
def fallbackFadeTag : String := "\x7b\\fad(800,500)\x7d"

/-- Bounce override of the ungrouped fallback path (src/main.py:405). -/
def fallbackBounceTag : String :=
  "\x7b\\move(384,500,384,384,0,500)\\t(0,300,\\fscx120\\fscy120)\\t(300,500,\\fscx100\\fscy100)\x7d"

/-- Ungrouped fallback cue synthesis (src/main.py:360-408), used when no
sentence word groups are passed; the whole timing list is one segment. -/
def fallbackCues (effect : String) (wts : List WordTiming) (v : ℚ) : List Cue :=
  if effect = "karaoke" then karaokeGroupCues wts v
  else if effect = "fade" then
    match wts with
    | [] => []
    | w0 :: _ => [⟨w0.start, v, fallbackFadeTag ++ pyJoin (wts.map WordTiming.word)⟩]
  else if effect = "typewriter" then typewriterGroupCues wts v
  else if effect = "bouncing" then
    match wts with
    | [] => []
    | w0 :: _ => [⟨w0.start, v, fallbackBounceTag ++ pyJoin (wts.map WordTiming.word)⟩]
  else
    match wts with
    | [] => []
    | w0 :: _ => [⟨w0.start, v, pyJoin (wts.map WordTiming.word)⟩]

/-- Decimal digit character. -/
def digitChar (n : Nat) : Char :=
  match n with
  | 0 => '0' | 1 => '1' | 2 => '2' | 3 => '3' | 4 => '4'
  | 5 => '5' | 6 => '6' | 7 => '7' | 8 => '8' | _ => '9'

/-- Decimal digits of `n`, most significant first; `fuel` bounds recursion. -/
def natDigitsAux : Nat → Nat → List Char
  | 0, _ => []
  | fuel + 1, n =>
    if n < 10 then [digitChar n]
    else natDigitsAux fuel (n / 10) ++ [digitChar (n % 10)]

/-- Decimal representation of a natural number (Python `str`). -/
def natRepr (n : Nat) : String :=
  String.mk (natDigitsAux (n + 1) n)

/-- Decimal representation of an integer (Python `str`). -/
def intRepr (i : Int) : String :=
  if i < 0 then "-" ++ natRepr i.natAbs else natRepr i.toNat

/-- Python float `%` (modulo with the sign of the divisor), on `ℚ`. -/
def qmod (a b : ℚ) : ℚ := a - b * ⌊a / b⌋

/-- Python `f"{n:02d}"` for the non-negative values this file produces. -/
def pad2 (n : Int) : String :=
  if n < 10 then "0" ++ intRepr n else intRepr n

/-- Embedding of `format_time_ass(seconds)` (src/main.py:249-254): `H:MM:SS.CC`.  The
two-decimal float formatting of `f"{secs:05.2f}"` is modelled by rounding
`secs` to centiseconds. -/
def format_time_ass (seconds : ℚ) : String :=
  let hours : Int := ⌊seconds / 3600⌋
  let minutes : Int := ⌊qmod seconds 3600 / 60⌋
  let secs : ℚ := qmod seconds 60
  let cs : Int := round (secs * 100)
  intRepr hours ++ ":" ++ pad2 minutes ++ ":" ++ pad2 (cs / 100) ++ "." ++ pad2 (cs % 100)

/-- The fixed `[Script Info]` / `[V4+ Styles]` header (src/main.py:263-274),
line by line. -/
def headerLines : List String :=
  ["[Script Info]",
   "Title: AI Generated Subtitles",
   "ScriptType: v4.00+",
   "WrapStyle: 0",
   "PlayResX: 768",
   "PlayResY: 768",
   "ScaledBorderAndShadow: yes",
   "",
   "[V4+ Styles]",
   "Format: Name, Fontname, Fontsize, PrimaryColour, SecondaryColour, OutlineColour, BackColour, Bold, Italic, Underline, StrikeOut, ScaleX, ScaleY, Spacing, Angle, BorderStyle, Outline, Shadow, Alignment, MarginL, MarginR, MarginV, Encoding",
   "Style: Default,Arial,48,&H00FFFFFF,&H000088EF,&H00000000,&H80000000,-1,0,0,0,100,100,0,0,1,3,2,5,10,10,384,1"]

/-- The `[Events]` section header appended last (src/main.py:411). -/
def eventsHeaderLine : String := "[Events]"

/-- The `Format:` line appended after the `[Events]` header (src/main.py:411). -/
def eventsFormatLine : String :=
  "Format: Layer, Start, End, Style, Name, MarginL, MarginR, MarginV, Effect, Text"

/-- The 3-second blank placeholder dialogue line written when the word
timing list is empty (src/main.py:277), trailing space included. -/
def placeholderLine : String := "Dialogue: 0,0:00:00.00,0:00:03.00,Default,,0,0,0,, "

/-- One `Dialogue:` line of the document (src/main.py:333 and friends). -/
def dialogueLine (c : Cue) : String :=
  "Dialogue: 0," ++ format_time_ass c.startT ++ "," ++ format_time_ass c.endT
    ++ ",Default,,0,0,0,," ++ c.text

/-- Embedding of `create_karaoke_subtitles` as the lines of the written document
(src/main.py:256-413).  Empty timings: header plus placeholder, *without*
the `[Events]` trailer (the source returns early at line 280).  Otherwise
the dialogue lines are emitted first and the `[Events]` header plus its
`Format:` line are appended at the very end (line 411). -/
def assDocumentLines (wts : List WordTiming) (effect : String)
    (sgroups : List (List WordTiming)) : Option (List String) :=
  if wts.isEmpty then
    some (headerLines ++ [placeholderLine])
  else if sgroups.isEmpty then
    some (headerLines ++ (fallbackCues effect wts (videoEnd wts)).map dialogueLine
      ++ [eventsHeaderLine, eventsFormatLine])
  else
    (effectCues effect sgroups (videoEnd wts)).map (fun cues =>
      headerLines ++ cues.map dialogueLine ++ [eventsHeaderLine, eventsFormatLine])

/-- State of the sentence-grouping loop of `generate_video`
(src/main.py:761-783). -/
structure GroupState where
  sentence_timings : List ℚ
  sentence_word_groups : List (List WordTiming)
  word_index : Nat
deriving DecidableEq

/-- One iteration of the grouping loop (src/main.py:766-783): consume the
word count of the sentence from the flat timings, or fall back to an even
proportional start and an empty placeholder group. -/
def buildGroupsStep (wts : List WordTiming) (duration : ℚ) (nSentences : Nat)
    (st : GroupState) (sentence : String) : GroupState :=
  let n := (pySplit sentence).length
  if st.word_index + n ≤ wts.length then
    { sentence_timings :=
        st.sentence_timings ++ [((wts.get? st.word_index).map WordTiming.start).getD 0]
      sentence_word_groups := st.sentence_word_groups ++ [(wts.drop st.word_index).take n]
      word_index := st.word_index + n }
  else
    { sentence_timings :=
        st.sentence_timings ++ [duration * (st.sentence_timings.length : ℚ) / (nSentences : ℚ)]
      sentence_word_groups := st.sentence_word_groups ++ [[]]
      word_index := st.word_index }

/-- The grouping loop of `generate_video` (src/main.py:761-783). -/
def buildGroups (sentences : List String) (wts : List WordTiming) (duration : ℚ) :
    GroupState :=
  sentences.foldl (buildGroupsStep wts duration sentences.length) ⟨[], [], 0⟩

/-! ## Word-timing estimator lemmas -/

theorem complexityOf_pos (w : String) : 0 < complexityOf w := by
  unfold complexityOf
  dsimp only
  split_ifs <;> norm_num

theorem pauseMultiplier_pos (w : String) : 0 < pauseMultiplier w := by
  unfold pauseMultiplier
  split_ifs <;> norm_num

theorem pauseOf_pos (prev : Option String) : 0 < pauseOf prev := by
  cases prev with
  | none => norm_num [pauseOf]
  | some p => simpa [pauseOf] using pauseMultiplier_pos p

/-- The clamp keeps the end of every word at or below `duration - 0.1`. -/
theorem stepDuration_le (b d : ℚ) (w : String) (prev : Option String) (cur : ℚ) :
    cur + stepDuration b d w prev cur ≤ d - 1/10 := by
  unfold stepDuration
  dsimp only
  split_ifs with hc
  · linarith
  · push_neg at hc
    linarith

/-- Below the clamp threshold the step duration is positive. -/
theorem lt_add_stepDuration (b d : ℚ) (hb : 0 < b) (w : String) (prev : Option String)
    (cur : ℚ) (hcur : cur < d - 1/10) : cur < cur + stepDuration b d w prev cur := by
  unfold stepDuration
  dsimp only
  split_ifs with hc
  · linarith
  · have := mul_pos (mul_pos hb (complexityOf_pos w)) (pauseOf_pos prev)
    linarith

/-- As long as the cursor is at most `d - 0.05`, a step loses at most the
`0.05` the inter-word gap will add back. -/
theorem neg_le_stepDuration (b d : ℚ) (hb : 0 < b) (w : String) (prev : Option String)
    (cur : ℚ) (hcur : cur ≤ d - 1/20) : -(1/20) ≤ stepDuration b d w prev cur := by
  unfold stepDuration
  dsimp only
  split_ifs with hc
  · linarith
  · have := mul_pos (mul_pos hb (complexityOf_pos w)) (pauseOf_pos prev)
    linarith

theorem analyzeAux_length (b d : ℚ) :
    ∀ (ws : List String) (prev : Option String) (cur : ℚ),
      (analyzeAux b d ws prev cur).length = ws.length
  | [], _, _ => rfl
  | w :: rest, prev, cur => by
    simp only [analyzeAux, List.length_cons, analyzeAux_length b d rest]

theorem analyzeAux_endTime_le (b d : ℚ) (ws : List String) :
    ∀ (prev : Option String) (cur : ℚ), ∀ t ∈ analyzeAux b d ws prev cur,
      t.endTime ≤ d - 1/10 := by
  induction ws with
  | nil => intro prev cur t ht; simp [analyzeAux] at ht
  | cons w rest ih =>
    intro prev cur t ht
    simp only [analyzeAux, List.mem_cons] at ht
    rcases ht with rfl | ht
    · exact stepDuration_le b d w prev cur
    · exact ih _ _ t ht

theorem analyzeAux_start_lt_endTime (b d : ℚ) (hb : 0 < b) (ws : List String) :
    ∀ (prev : Option String) (cur : ℚ), ∀ t ∈ analyzeAux b d ws prev cur,
      t.start < d - 1/10 → t.start < t.endTime := by
  induction ws with
  | nil => intro prev cur t ht; simp [analyzeAux] at ht
  | cons w rest ih =>
    intro prev cur t ht hlt
    simp only [analyzeAux, List.mem_cons] at ht
    rcases ht with rfl | ht
    · exact lt_add_stepDuration b d hb w prev cur hlt
    · exact ih _ _ t ht hlt

theorem analyzeAux_chain (b d : ℚ) (hb : 0 < b) (ws : List String) :
    ∀ (prev : Option String) (cur : ℚ), cur ≤ d - 1/20 →
      List.Chain' (fun s t => s.start ≤ t.start) (analyzeAux b d ws prev cur) := by
  induction ws with
  | nil => intro prev cur _; simp [analyzeAux]
  | cons w rest ih =>
    intro prev cur hcur
    cases rest with
    | nil => simp [analyzeAux]
    | cons w' rest' =>
      have hwd := neg_le_stepDuration b d hb w prev cur hcur
      have hend := stepDuration_le b d w prev cur
      simp only [analyzeAux, List.isEmpty_cons, if_neg Bool.false_ne_true]
      rw [List.chain'_cons']
      refine ⟨?_, ih (some w) _ (by linarith)⟩
      intro y hy
      simp only [analyzeAux, List.head?, Option.mem_def, Option.some.injEq] at hy
      subst hy
      dsimp only
      linarith

/-! ## Claim C5: the pause multiplier tests containment, not a trailing
character -/

/-- C5 counterexample: the previous word `"a,b"` does not end in `,` or `;`
(its last character is `b`), yet the pause multiplier applied to the next
word is 1.3, where the claim requires 1.0. -/
theorem pauseMultiplier_not_trailing :
    pauseMultiplier "a,b" = 13/10 ∧
    "a,b".data.getLast? = some 'b' ∧
    ('b' ≠ ',' ∧ 'b' ≠ ';') ∧
    (13:ℚ)/10 ≠ 1 := by
  refine ⟨rfl, rfl, by decide, by norm_num⟩

/-- C5 amended: for a word at index `i > 0` the pause multiplier is 1.3
exactly when the previous word *contains* `,` or `;` anywhere, otherwise
1.6 exactly when it contains `.`, `!` or `?`, otherwise 1.0. -/
theorem pauseMultiplier_by_containment (prev : String) :
    (pauseMultiplier prev = 13/10 ↔
      (pyContains prev ',' || pyContains prev ';') = true) ∧
    (pauseMultiplier prev = 16/10 ↔
      ((pyContains prev ',' || pyContains prev ';') = false ∧
       (pyContains prev '.' || pyContains prev '!' || pyContains prev '?') = true)) ∧
    (pauseMultiplier prev = 1 ↔
      ((pyContains prev ',' || pyContains prev ';') = false ∧
       (pyContains prev '.' || pyContains prev '!' || pyContains prev '?') = false)) := by
  unfold pauseMultiplier
  rcases h1 : (pyContains prev ',' || pyContains prev ';') with _ | _ <;>
    rcases h2 : (pyContains prev '.' || pyContains prev '!' || pyContains prev '?') with _ | _ <;>
      norm_num

/-! ## Claim C3: positive word durations -/

/-- C3 counterexample: for text of three long words and duration 1 (> 0 as
the claim requires), the third produced entry is
`{word := "extraordinary", start := 19/20, end := 9/10}` with
`end < start` — the clamp makes the duration negative. -/
theorem estimator_entry_with_nonpositive_duration :
    (0:ℚ) < 1 ∧
    analyze_speech_pattern "extraordinary extraordinary extraordinary" 1 =
      [⟨"extraordinary", 1/10, 1/2⟩, ⟨"extraordinary", 11/20, 9/10⟩,
       ⟨"extraordinary", 19/20, 9/10⟩] ∧
    ¬ ((19:ℚ)/20 < 9/10) := by
  refine ⟨by norm_num, ?_, by norm_num⟩
  have hsplit : pySplit "extraordinary extraordinary extraordinary" =
      ["extraordinary", "extraordinary", "extraordinary"] := rfl
  have hc : complexityOf "extraordinary" = 12/10 := rfl
  have hp : pauseMultiplier "extraordinary" = 1 := rfl
  rw [analyze_speech_pattern]
  simp only [hsplit]
  norm_num [analyzeAux, stepDuration, pauseOf, hc, hp]

/-- C3 amended: an entry produced by the estimator has `end > start`
provided its `start` lies strictly below `totalDuration - 0.1`; once the
cursor reaches that threshold the clamp can make `end ≤ start`. -/
theorem estimator_start_lt_endTime (text : String) (d : ℚ) (hd : 0 < d) :
    ∀ t ∈ analyze_speech_pattern text d, t.start < d - 1/10 → t.start < t.endTime := by
  intro t ht hlt
  simp only [analyze_speech_pattern] at ht
  split_ifs at ht with he
  · simp at ht
  · have hlen : 0 < (pySplit text).length := by
      cases h : pySplit text with
      | nil => rw [h] at he; simp at he
      | cons a l => simp [h]
    have hb : 0 < d / ((pySplit text).length : ℚ) := by
      apply div_pos hd
      exact_mod_cast hlen
    exact analyzeAux_start_lt_endTime _ d hb _ _ _ t ht hlt

/-- C3 witness. -/
theorem estimator_start_lt_endTime_witness :
    (0:ℚ) < 3 ∧ (1:ℚ)/10 < 3 - 1/10 ∧ (1:ℚ)/10 < 1 := by
  have heval : analyze_speech_pattern "hi" 3 = [⟨"hi", 1/10, 1⟩] := by
    have hsplit : pySplit "hi" = ["hi"] := rfl
    have hc : complexityOf "hi" = 3/10 := rfl
    rw [analyze_speech_pattern]
    simp only [hsplit]
    norm_num [analyzeAux, stepDuration, pauseOf, hc]
  refine ⟨by norm_num, by norm_num, ?_⟩
  have := estimator_start_lt_endTime "hi" 3 (by norm_num) ⟨"hi", 1/10, 1⟩
    (by rw [heval]; exact List.mem_singleton_self _) (by norm_num)
  simpa using this

/-! ## Claim C4: shape of the estimator output -/

/-- C4 counterexample: at `duration = 0.1` (> 0 as the claim requires) the
two produced `start` values are `0.1` followed by `0.05` — strictly
decreasing, so the non-decreasing property of the claim fails. -/
theorem estimator_decreasing_starts :
    (0:ℚ) < 1/10 ∧
    analyze_speech_pattern "a b" (1/10) = [⟨"a", 1/10, 0⟩, ⟨"b", 1/20, 0⟩] ∧
    ¬ List.Chain' (fun s t => s.start ≤ t.start) (analyze_speech_pattern "a b" (1/10)) := by
  have heval : analyze_speech_pattern "a b" (1/10) = [⟨"a", 1/10, 0⟩, ⟨"b", 1/20, 0⟩] := by
    have hsplit : pySplit "a b" = ["a", "b"] := rfl
    have hca : complexityOf "a" = 3/10 := rfl
    have hcb : complexityOf "b" = 3/10 := rfl
    have hpa : pauseMultiplier "a" = 1 := rfl
    rw [analyze_speech_pattern]
    simp only [hsplit]
    norm_num [analyzeAux, stepDuration, pauseOf, hca, hcb, hpa]
  refine ⟨by norm_num, heval, ?_⟩
  rw [heval]
  simp only [List.chain'_cons, List.chain'_singleton, and_true]
  norm_num

/-- C4 amended: the estimator returns one entry per whitespace token and
every entry ends at or before `totalDuration`, for any duration; the first
entry starts at `0.1`; the `start` values are non-decreasing provided
`totalDuration ≥ 0.15` (at smaller durations the clamp can push a later
start of a later word below an earlier one, as the counterexample shows). -/
theorem estimator_shape (text : String) (d : ℚ) :
    (analyze_speech_pattern text d).length = (pySplit text).length ∧
    (pySplit text ≠ [] →
      ((analyze_speech_pattern text d).head?).map WordTiming.start = some (1/10)) ∧
    (∀ t ∈ analyze_speech_pattern text d, t.endTime ≤ d) ∧
    (3/20 ≤ d →
      List.Chain' (fun s t => s.start ≤ t.start) (analyze_speech_pattern text d)) := by
  rcases h : pySplit text with _ | ⟨w, rest⟩
  · refine ⟨?_, ?_, ?_, ?_⟩ <;> simp [analyze_speech_pattern, h]
  · have hunf : analyze_speech_pattern text d =
        analyzeAux (d / (((w :: rest).length : ℕ) : ℚ)) d (w :: rest) none (1/10) := by
      simp [analyze_speech_pattern, h]
    refine ⟨?_, ?_, ?_, ?_⟩
    · rw [hunf]
      exact analyzeAux_length _ _ _ _ _
    · intro _
      rw [hunf]
      simp [analyzeAux]
    · intro t ht
      rw [hunf] at ht
      have := analyzeAux_endTime_le _ d _ _ _ t ht
      linarith
    · intro hd
      have hb : 0 < d / (((w :: rest).length : ℕ) : ℚ) := by
        apply div_pos (by linarith)
        exact_mod_cast Nat.succ_pos rest.length
      rw [hunf]
      exact analyzeAux_chain _ d hb _ _ _ (by linarith)

/-- C4 witness. -/
theorem estimator_shape_witness :
    (analyze_speech_pattern "hi there" 3).length = (pySplit "hi there").length ∧
    ((analyze_speech_pattern "hi there" 3).head?).map WordTiming.start = some (1/10) ∧
    (∀ t ∈ analyze_speech_pattern "hi there" 3, t.endTime ≤ 3) ∧
    List.Chain' (fun s t => s.start ≤ t.start) (analyze_speech_pattern "hi there" 3) := by
  obtain ⟨h1, h2, h3, h4⟩ := estimator_shape "hi there" 3
  exact ⟨h1, h2 (by decide), h3, h4 (by norm_num)⟩

/-! ## Sentence segmenter lemmas -/

theorem head?_fails_of_dropWhile {α : Type} {p : α → Bool} {l : List α} {x : α}
    (hx : (l.dropWhile p).head? = some x) : p x = false := by
  have h := List.head?_dropWhile_not p l
  rw [hx] at h
  exact h

theorem dropWhile_self_of_head {α : Type} {p : α → Bool} {l : List α}
    (h : ∀ x, l.head? = some x → p x = false) : l.dropWhile p = l := by
  cases l with
  | nil => rfl
  | cons a t => exact List.dropWhile_cons_of_neg (by simp [h a rfl])

theorem dropWhile_dropWhile {α : Type} (p : α → Bool) (l : List α) :
    (l.dropWhile p).dropWhile p = l.dropWhile p :=
  dropWhile_self_of_head (fun _ hx => head?_fails_of_dropWhile hx)

/-- A non-empty two-sided trim starts with a character failing `p`. -/
theorem head?_dropEnds (p : Char → Bool) (l : List Char) {x : Char}
    (hx : (dropEnds p l).head? = some x) : p x = false := by
  unfold dropEnds at hx
  rw [← List.getLast?_eq_head?_reverse] at hx
  obtain ⟨t, ht⟩ := List.dropWhile_suffix (l := (l.dropWhile p).reverse) p
  cases hB : (l.dropWhile p).reverse.dropWhile p with
  | nil => rw [hB] at hx; simp at hx
  | cons b bs =>
    have hne : (l.dropWhile p).reverse.dropWhile p ≠ [] := by simp [hB]
    have h1 : ((l.dropWhile p).reverse).getLast? = some x := by
      rw [← ht, List.getLast?_append_of_ne_nil _ hne]
      exact hx
    rw [List.getLast?_eq_head?_reverse, List.reverse_reverse] at h1
    exact head?_fails_of_dropWhile h1

theorem dropWhile_dropEnds (p : Char → Bool) (l : List Char) :
    (dropEnds p l).dropWhile p = dropEnds p l :=
  dropWhile_self_of_head (fun _ hx => head?_dropEnds p l hx)

theorem dropEnds_idem (p : Char → Bool) (l : List Char) :
    dropEnds p (dropEnds p l) = dropEnds p l := by
  show (((dropEnds p l).dropWhile p).reverse.dropWhile p).reverse = dropEnds p l
  rw [dropWhile_dropEnds]
  have h2 : (dropEnds p l).reverse = (l.dropWhile p).reverse.dropWhile p := by
    unfold dropEnds
    rw [List.reverse_reverse]
  rw [h2, dropWhile_dropWhile]
  rfl

theorem pyStrip_idem (s : String) : pyStrip (pyStrip s) = pyStrip s :=
  congrArg String.mk (dropEnds_idem Char.isWhitespace s.data)

theorem mem_dropEnds {p : Char → Bool} {l : List Char} {c : Char}
    (hc : c ∈ dropEnds p l) : c ∈ l := by
  unfold dropEnds at hc
  rw [List.mem_reverse] at hc
  have h1 : c ∈ (l.dropWhile p).reverse := (List.dropWhile_sublist p).mem hc
  rw [List.mem_reverse] at h1
  exact (List.dropWhile_sublist p).mem h1

/-- Without sentence-terminal punctuation the splitter never cuts. -/
theorem splitSentencesAux_no_punct :
    ∀ (l acc : List Char), (∀ c ∈ l, isTermPunct c = false) →
      (∀ c ∈ acc, isTermPunct c = false) →
      splitSentencesAux l acc = [acc.reverse ++ l] := by
  intro l
  induction l with
  | nil => intro acc _ _; simp [splitSentencesAux]
  | cons c r ih =>
    intro acc hl hacc
    cases acc with
    | nil =>
      simp only [splitSentencesAux, Bool.and_false]
      rw [if_neg (by simp)]
      rw [ih [c] (fun c' hc' => hl c' (List.mem_cons_of_mem _ hc'))
        (fun c' hc' => by
          rw [List.mem_singleton] at hc'
          subst hc'
          exact hl c' (List.mem_cons_self _ _))]
      simp
    | cons p acc' =>
      have hp : isTermPunct p = false := hacc p (List.mem_cons_self _ _)
      simp only [splitSentencesAux, hp, Bool.and_false]
      rw [if_neg (by simp)]
      rw [ih (c :: p :: acc') (fun c' hc' => hl c' (List.mem_cons_of_mem _ hc'))
        (fun c' hc' => by
          rcases List.mem_cons.1 hc' with rfl | hc''
          · exact hl c' (List.mem_cons_self _ _)
          · exact hacc c' hc'')]
      simp

/-- C9 counterexample: `"hi"` is non-empty, already stripped, and has no
terminal punctuation, yet the segmenter returns the empty list (the
whole-text sentence is discarded by the `> 5` length filter), not the
single whole-text sentence the claim requires. -/
theorem segmenter_drops_short_whole_text :
    split_into_sentences "hi" = [] ∧
    pyStrip "hi" = "hi" ∧
    ("hi" : String) ≠ "" ∧
    (∀ c ∈ "hi".data, isTermPunct c = false) ∧
    ([] : List String) ≠ ["hi"] := by
  refine ⟨?_, rfl, by decide, by decide, by decide⟩
  simp [split_into_sentences, splitSentencesAux, pyStrip, dropEnds, isTermPunct,
    Char.isWhitespace]

/-- C9 amended: on text with no sentence-terminal punctuation the segmenter
returns the single whole (trimmed) text exactly when the trimmed text is
longer than 5 characters, and the empty list otherwise. -/
theorem segmenter_whole_text (text : String)
    (hno : ∀ c ∈ text.data, isTermPunct c = false) :
    split_into_sentences text =
      if 5 < (pyStrip text).length then [pyStrip text] else [] := by
  have hstrip : ∀ c ∈ (pyStrip text).data, isTermPunct c = false := fun c hc =>
    hno c (mem_dropEnds hc)
  have haux : splitSentencesAux (pyStrip text).data [] = [(pyStrip text).data] := by
    simpa using splitSentencesAux_no_punct (pyStrip text).data [] hstrip (by simp)
  simp only [split_into_sentences, haux, List.map_cons, List.map_nil]
  have hmk : String.mk (pyStrip text).data = pyStrip text := rfl
  rw [hmk]
  have hidem := pyStrip_idem text
  by_cases h5 : 5 < (pyStrip text).length
  · rw [if_pos h5]
    simp [List.filter_cons, hidem, h5]
  · rw [if_neg h5]
    simp [List.filter_cons, hidem, h5]

/-- C9 witness. -/
theorem segmenter_whole_text_witness :
    split_into_sentences "hello there" =
      if 5 < (pyStrip "hello there").length then [pyStrip "hello there"] else [] :=
  segmenter_whole_text "hello there" (by decide)

/-! ## Claim C1: unknown effect names fall back to static, not karaoke -/

/-- C1 counterexample: on a concrete one-word group the cue sequence for
`effect = "unknown_value"` differs from the one for `effect = "karaoke"`:
the final `else` of the source (src/main.py:349) handles any unknown effect with
the static branch, so no karaoke highlight markup is produced. -/
theorem unknown_effect_ne_karaoke :
    effectCues "unknown_value" [[⟨"hi", 0, 1⟩]] 3 ≠
      effectCues "karaoke" [[⟨"hi", 0, 1⟩]] 3 := by
  decide

theorem groupCues_unknown_eq_static (effect : String)
    (h1 : effect ≠ "karaoke") (h2 : effect ≠ "typewriter")
    (h3 : effect ≠ "fade") (h4 : effect ≠ "bouncing")
    (ws : List WordTiming) (e : ℚ) :
    groupCues effect ws e = groupCues "static" ws e := by
  cases ws with
  | nil =>
    unfold groupCues
    rw [if_neg h1, if_neg h2, if_neg (by decide : ¬("static":String) = "karaoke"),
      if_neg (by decide : ¬("static":String) = "typewriter")]
  | cons w0 rest =>
    unfold groupCues
    rw [if_neg h1, if_neg h2, if_neg (by decide : ¬("static":String) = "karaoke"),
      if_neg (by decide : ¬("static":String) = "typewriter")]
    dsimp only
    rw [if_neg h3, if_neg h4, if_neg (by decide : ¬("static":String) = "fade"),
      if_neg (by decide : ¬("static":String) = "bouncing")]

/-- C1 amended: an effect string that is none of `karaoke`, `typewriter`,
`fade`, `bouncing` produces exactly the cue sequence of `static` (one plain
full-sentence cue per group), not that of `karaoke`. -/
theorem unknown_effect_as_static (effect : String)
    (h1 : effect ≠ "karaoke") (h2 : effect ≠ "typewriter")
    (h3 : effect ≠ "fade") (h4 : effect ≠ "bouncing")
    (groups : List (List WordTiming)) (v : ℚ) :
    effectCues effect groups v = effectCues "static" groups v := by
  unfold effectCues
  have hfun : (fun (p : List WordTiming × ℚ) =>
      if p.1.isEmpty then [] else groupCues effect p.1 p.2) =
      (fun p => if p.1.isEmpty then [] else groupCues "static" p.1 p.2) := by
    funext p
    rw [groupCues_unknown_eq_static effect h1 h2 h3 h4]
  rw [hfun]

/-- C1 witness. -/
theorem unknown_effect_as_static_witness :
    effectCues "unknown_value" [[⟨"a", 0, 1⟩], [⟨"b", 2, 3⟩]] 5 =
      effectCues "static" [[⟨"a", 0, 1⟩], [⟨"b", 2, 3⟩]] 5 :=
  unknown_effect_as_static "unknown_value" (by decide) (by decide) (by decide) (by decide)
    [[⟨"a", 0, 1⟩], [⟨"b", 2, 3⟩]] 5

/-! ## Claim C2: an empty placeholder group that is not last crashes the
synthesizer -/

/-- C2: with a non-empty word-timing list and sentence word groups holding
an empty placeholder group that is *not* the last group, the synthesizer
does not skip the empty group while searching for the next start:
src/main.py:292 evaluates `sentence_word_groups[i + 1][0]["start"]`, which
raises `IndexError` on the empty next group (modelled by `none`), and no
cue document is produced. -/
theorem empty_middle_group_fails :
    effectCues "karaoke" [[⟨"one", 0, 1⟩], [], [⟨"two", 2, 3⟩]] 5 = none ∧
    assDocumentLines [⟨"one", 0, 1⟩, ⟨"two", 2, 3⟩] "karaoke"
      [[⟨"one", 0, 1⟩], [], [⟨"two", 2, 3⟩]] = none := by
  constructor
  · decide
  · decide

/-! ## Karaoke cue synthesis lemmas -/

theorem groupCues_karaoke (ws : List WordTiming) (e : ℚ) :
    groupCues "karaoke" ws e = karaokeGroupCues ws e := by
  unfold groupCues
  rw [if_pos rfl]

theorem karaokeGroupCues_length (ws : List WordTiming) (e : ℚ) :
    (karaokeGroupCues ws e).length = ws.length := by
  simp [karaokeGroupCues]

theorem karaokeGroupCues_get? (ws : List WordTiming) (e : ℚ) (i : Nat) :
    (karaokeGroupCues ws e).get? i = (ws.get? i).map (fun t =>
      { startT := t.start
        endT := match ws.get? (i + 1) with
          | some nxt => nxt.start - 1/1000
          | none => e
        text := karaokeText ws i }) := by
  unfold karaokeGroupCues
  rw [List.get?_map, List.get?_enum]
  cases ws.get? i <;> rfl

/-- Within one group, consecutive karaoke cues never overlap: each cue ends
0.001 before the next word (= next cue) starts. -/
theorem karaokeGroupCues_chain (ws : List WordTiming) (e : ℚ) :
    List.Chain' (fun a b => a.endT ≤ b.startT) (karaokeGroupCues ws e) := by
  rw [List.chain'_iff_get]
  intro i h
  rw [karaokeGroupCues_length] at h
  have hi : i < ws.length := by omega
  have hi1 : i + 1 < ws.length := by omega
  have h1 := karaokeGroupCues_get? ws e i
  have h2 := karaokeGroupCues_get? ws e (i + 1)
  rw [List.get?_eq_get (by rw [karaokeGroupCues_length]; omega),
    List.get?_eq_get hi] at h1
  rw [List.get?_eq_get (by rw [karaokeGroupCues_length]; omega),
    List.get?_eq_get hi1] at h2
  simp only [Option.map_some', Option.some.injEq] at h1 h2
  rw [h1, h2]
  simp only [List.get?_eq_get hi1]
  have : (ws.get ⟨i + 1, hi1⟩).start - 1/1000 ≤ (ws.get ⟨i + 1, hi1⟩).start := by linarith
  simpa using this

theorem karaokeGroupCues_head_start (w : WordTiming) (ws : List WordTiming) (e : ℚ) :
    ∀ y ∈ (karaokeGroupCues (w :: ws) e).head?, y.startT = w.start := by
  intro y hy
  rw [← List.get?_zero, karaokeGroupCues_get?] at hy
  simp only [List.get?_cons_zero, Option.map_some', Option.mem_def,
    Option.some.injEq] at hy
  rw [← hy]

theorem karaokeGroupCues_getLast_endT (ws : List WordTiming) (e : ℚ) (hne : ws ≠ []) :
    ((karaokeGroupCues ws e).getLast?).map Cue.endT = some e := by
  have hpos : 0 < ws.length := List.length_pos.mpr hne
  rw [List.getLast?_eq_get?, karaokeGroupCues_length, karaokeGroupCues_get?]
  have hlt : ws.length - 1 < ws.length := Nat.sub_lt hpos Nat.one_pos
  rw [List.get?_eq_get hlt]
  have hsucc : ws.length - 1 + 1 = ws.length := Nat.succ_pred_eq_of_pos hpos
  have hnone : ws[ws.length - 1 + 1]? = none := by
    rw [hsucc]
    exact List.getElem?_eq_none (le_refl _)
  simp [hnone]

/-- Shape of a successful `sentence_end_times` run on a non-empty group
list: the produced list is non-empty. -/
theorem sentenceEndTimes_cons (g : List WordTiming) (gs : List (List WordTiming))
    (v : ℚ) (ends : List ℚ) (h : sentenceEndTimes (g :: gs) v = some ends) :
    ∃ e es, ends = e :: es := by
  cases gs with
  | nil =>
    simp only [sentenceEndTimes, Option.some.injEq] at h
    exact ⟨v, [], h.symm⟩
  | cons g2 rest =>
    simp only [sentenceEndTimes] at h
    cases hw : g2.head? with
    | none => rw [hw] at h; simp at h
    | some w =>
      rw [hw] at h
      obtain ⟨es, _, hes⟩ := Option.map_eq_some'.1 h
      exact ⟨w.start, es, hes.symm⟩

/-- The karaoke dialogue list of a successful grouped run, flattened in
group order, has non-overlapping consecutive cues: within a group each cue
ends 0.001 before the next starts, and the last cue of a group ends exactly
when the first word (= first cue) of the next group starts. -/
theorem karaoke_flat_chain :
    ∀ (groups : List (List WordTiming)) (v : ℚ) (ends : List ℚ),
      sentenceEndTimes groups v = some ends →
      List.Chain' (fun a b => a.endT ≤ b.startT)
        ((groups.zip ends).flatMap (fun p =>
          if p.1.isEmpty then [] else groupCues "karaoke" p.1 p.2))
  | [], v, ends => by
    intro h
    simp only [sentenceEndTimes, Option.some.injEq] at h
    subst h
    simp
  | [g], v, ends => by
    intro h
    simp only [sentenceEndTimes, Option.some.injEq] at h
    subst h
    simp only [List.zip_cons_cons, List.zip_nil_right, List.flatMap_cons,
      List.flatMap_nil, List.append_nil]
    split_ifs with hg
    · simp
    · rw [groupCues_karaoke]
      exact karaokeGroupCues_chain g v
  | g1 :: g2 :: rest, v, ends => by
    intro h
    simp only [sentenceEndTimes] at h
    cases hw : g2.head? with
    | none => rw [hw] at h; simp at h
    | some w =>
      rw [hw] at h
      obtain ⟨ends', hrec, hends⟩ := Option.map_eq_some'.1 h
      subst hends
      simp only [List.zip_cons_cons, List.flatMap_cons]
      have hg2ne : g2 ≠ [] := by
        intro hg2
        rw [hg2] at hw
        simp at hw
      obtain ⟨e2, es2, hends'⟩ := sentenceEndTimes_cons g2 rest v ends' hrec
      apply List.Chain'.append
      · split_ifs with hg1
        · simp
        · rw [groupCues_karaoke]
          exact karaokeGroupCues_chain g1 w.start
      · exact karaoke_flat_chain (g2 :: rest) v ends' hrec
      · intro x hx y hy
        -- x is the last cue of the g1 segment, with end time w.start
        have hxend : x.endT = w.start := by
          split_ifs at hx with hg1
          · simp at hx
          · rw [groupCues_karaoke] at hx
            have hg1ne : g1 ≠ [] := by
              intro hg1'
              rw [hg1'] at hg1
              simp at hg1
            have := karaokeGroupCues_getLast_endT g1 w.start hg1ne
            rw [Option.mem_def] at hx
            rw [hx] at this
            simpa using this
        -- y is the first cue of the g2 segment, with start time w.start
        have hystart : y.startT = w.start := by
          subst hends'
          simp only [List.zip_cons_cons, List.flatMap_cons] at hy
          rw [if_neg (by simpa using hg2ne), groupCues_karaoke] at hy
          cases hg2c : g2 with
          | nil => exact absurd hg2c hg2ne
          | cons w2 g2t =>
            rw [hg2c] at hy
            have hne : karaokeGroupCues (w2 :: g2t) e2 ≠ [] := by
              intro hnil
              have := karaokeGroupCues_length (w2 :: g2t) e2
              rw [hnil] at this
              simp at this
            rw [List.head?_append_of_ne_nil _ hne] at hy
            have hw2 : w2.start = w.start := by
              rw [hg2c] at hw
              simp only [List.head?_cons, Option.some.injEq] at hw
              rw [hw]
            rw [← hw2]
            exact karaokeGroupCues_head_start w2 g2t e2 y hy
        rw [hxend, hystart]

/-- Last cue of the flattened karaoke dialogue list: when the last group is
non-empty, it ends exactly at the `video_end` value `v`. -/
theorem karaoke_flat_getLast :
    ∀ (groups : List (List WordTiming)) (v : ℚ) (ends : List ℚ),
      sentenceEndTimes groups v = some ends →
      ∀ gl, groups.getLast? = some gl → gl ≠ [] →
      ((((groups.zip ends).flatMap (fun p =>
          if p.1.isEmpty then [] else groupCues "karaoke" p.1 p.2))).getLast?).map Cue.endT
        = some v
  | [], v, ends => by
    intro _ gl hgl
    simp at hgl
  | [g], v, ends => by
    intro h gl hgl hne
    simp only [sentenceEndTimes, Option.some.injEq] at h
    subst h
    simp only [List.getLast?_singleton, Option.some.injEq] at hgl
    subst hgl
    simp only [List.zip_cons_cons, List.zip_nil_right, List.flatMap_cons,
      List.flatMap_nil, List.append_nil]
    rw [if_neg (by simpa using hne), groupCues_karaoke]
    exact karaokeGroupCues_getLast_endT _ v hne
  | g1 :: g2 :: rest, v, ends => by
    intro h gl hgl hne
    simp only [sentenceEndTimes] at h
    cases hw : g2.head? with
    | none => rw [hw] at h; simp at h
    | some w =>
      rw [hw] at h
      obtain ⟨ends', hrec, hends⟩ := Option.map_eq_some'.1 h
      subst hends
      simp only [List.zip_cons_cons, List.flatMap_cons]
      have hg2ne : g2 ≠ [] := by
        intro hg2
        rw [hg2] at hw
        simp at hw
      obtain ⟨e2, es2, hends'⟩ := sentenceEndTimes_cons g2 rest v ends' hrec
      have htail : ((g2 :: rest).zip ends').flatMap (fun p =>
          if p.1.isEmpty then [] else groupCues "karaoke" p.1 p.2) ≠ [] := by
        subst hends'
        simp only [List.zip_cons_cons, List.flatMap_cons]
        rw [if_neg (by simpa using hg2ne), groupCues_karaoke]
        intro hnil
        rw [List.append_eq_nil] at hnil
        have := karaokeGroupCues_length g2 e2
        rw [hnil.1] at this
        exact hg2ne (List.length_eq_zero.1 this.symm)
      rw [List.getLast?_append_of_ne_nil _ htail]
      exact karaoke_flat_getLast (g2 :: rest) v ends' hrec gl
        (by rw [← hgl]; simp) hne

/-! ## Claim C7: cue counts and non-overlap for karaoke -/

/-- C7: a group with N words yields exactly N karaoke cues, and in any
successful grouped karaoke run consecutive cues of the emitted sequence
never overlap: the end of each cue is at most the start of the next (within
one group the synthesizer subtracts the 0.001s epsilon; the last cue of a
group ends exactly when the first cue of the next group starts). -/
theorem karaoke_counts_and_no_overlap :
    (∀ (ws : List WordTiming) (e : ℚ), ws ≠ [] →
      (karaokeGroupCues ws e).length = ws.length) ∧
    (∀ (groups : List (List WordTiming)) (v : ℚ) (cues : List Cue),
      effectCues "karaoke" groups v = some cues →
      List.Chain' (fun a b => a.endT ≤ b.startT) cues) := by
  constructor
  · intro ws e _
    exact karaokeGroupCues_length ws e
  · intro groups v cues h
    unfold effectCues at h
    obtain ⟨ends, hends, hcues⟩ := Option.map_eq_some'.1 h
    rw [← hcues]
    exact karaoke_flat_chain groups v ends hends

/-- C7 witness. -/
theorem karaoke_counts_and_no_overlap_witness :
    (karaokeGroupCues [⟨"hi", 0, 1⟩] 5).length = ([⟨"hi", 0, 1⟩] : List WordTiming).length ∧
    List.Chain' (fun a b => a.endT ≤ b.startT)
      ([⟨0, 5, karaokeText [⟨"hi", 0, 1⟩] 0⟩] : List Cue) := by
  constructor
  · exact karaoke_counts_and_no_overlap.1 [⟨"hi", 0, 1⟩] 5 (by decide)
  · exact karaoke_counts_and_no_overlap.2 [[⟨"hi", 0, 1⟩]] 5
      [⟨0, 5, karaokeText [⟨"hi", 0, 1⟩] 0⟩] (by decide)

/-! ## Claim C6: the window end of the last group -/

/-- C6 counterexample: for the pipeline input text `"extraordinary"` with
narration duration `totalDuration = 1`, the single word timing is
`(0.1, 0.9)`, so `video_end = 0.9 + 2.0 = 2.9` and the last cue ends at
`2.9`, not `totalDuration + 2.0 = 3.0` as the claim states. -/
theorem last_window_end_ne_duration_plus_two :
    (buildGroups (split_into_sentences "extraordinary")
        (analyze_speech_pattern "extraordinary" 1) 1).sentence_word_groups
      = [[⟨"extraordinary", 1/10, 9/10⟩]] ∧
    (effectCues "karaoke" [[⟨"extraordinary", 1/10, 9/10⟩]]
        (videoEnd (analyze_speech_pattern "extraordinary" 1))).map
        (fun cues => (cues.getLast?).map Cue.endT) = some (some (29/10)) ∧
    (29:ℚ)/10 ≠ 1 + 2 := by
  have hw : analyze_speech_pattern "extraordinary" 1 = [⟨"extraordinary", 1/10, 9/10⟩] := by
    have hsplit : pySplit "extraordinary" = ["extraordinary"] := rfl
    have hc : complexityOf "extraordinary" = 12/10 := rfl
    rw [analyze_speech_pattern]
    simp only [hsplit]
    norm_num [analyzeAux, stepDuration, pauseOf, hc]
  have hs : split_into_sentences "extraordinary" = ["extraordinary"] := by
    simp [split_into_sentences, splitSentencesAux, pyStrip, dropEnds, isTermPunct,
      Char.isWhitespace]
  refine ⟨?_, ?_, by norm_num⟩
  · rw [hw, hs]
    have hn : (pySplit "extraordinary").length = 1 := rfl
    simp [buildGroups, buildGroupsStep, hn]
  · rw [hw]
    have hv : videoEnd [(⟨"extraordinary", 1/10, 9/10⟩ : WordTiming)] = 29/10 := by
      norm_num [videoEnd]
    rw [hv]
    norm_num [effectCues, sentenceEndTimes, groupCues, karaokeGroupCues, List.enum]

/-- C6 amended: in a successful grouped karaoke run whose last group is
non-empty, the end time of the final emitted cue equals `video_end`, which
the source computes as the *end of the last word timing* plus the 2.0s tail
padding (src/main.py:285) — not as `totalDuration + 2.0`; since every
estimated word ends at or before `totalDuration - 0.1`, the final cue ends
strictly before `totalDuration + 2.0`. -/
theorem last_group_window_end (wts : List WordTiming)
    (groups : List (List WordTiming)) (cues : List Cue)
    (h : effectCues "karaoke" groups (videoEnd wts) = some cues)
    (gl : List WordTiming) (hgl : groups.getLast? = some gl) (hne : gl ≠ []) :
    (cues.getLast?).map Cue.endT = some (videoEnd wts) ∧
    videoEnd wts = ((wts.getLast?).map WordTiming.endTime).getD 0 + 2 := by
  refine ⟨?_, rfl⟩
  unfold effectCues at h
  obtain ⟨ends, hends, hcues⟩ := Option.map_eq_some'.1 h
  rw [← hcues]
  exact karaoke_flat_getLast groups (videoEnd wts) ends hends gl hgl hne

/-- C6 witness. -/
theorem last_group_window_end_witness :
    (([⟨0, 3, karaokeText [⟨"hi", 0, 1⟩] 0⟩] : List Cue).getLast?).map Cue.endT
      = some 3 := by
  have hv : videoEnd [⟨"hi", 0, 1⟩] = 3 := by norm_num [videoEnd]
  have h : effectCues "karaoke" [[⟨"hi", 0, 1⟩]] (videoEnd [⟨"hi", 0, 1⟩]) =
      some [⟨0, 3, karaokeText [⟨"hi", 0, 1⟩] 0⟩] := by
    rw [hv]
    decide
  have hres := (last_group_window_end [⟨"hi", 0, 1⟩] [[⟨"hi", 0, 1⟩]]
    [⟨0, 3, karaokeText [⟨"hi", 0, 1⟩] 0⟩] h [⟨"hi", 0, 1⟩] rfl (by decide)).1
  rw [hv] at hres
  exact hres

/-! ## Claim C8: typewriter prefix growth -/

theorem typewriterGroupCues_get? (ws : List WordTiming) (e : ℚ) (i : Nat) :
    (typewriterGroupCues ws e).get? i = (ws.get? i).map (fun t =>
      { startT := t.start
        endT := match ws.get? (i + 1) with
          | some nxt => nxt.start - 1/1000
          | none => e
        text := pyJoin ((ws.take (i + 1)).map WordTiming.word) }) := by
  unfold typewriterGroupCues
  rw [List.get?_map, List.get?_enum]
  cases ws.get? i <;> rfl

theorem pyJoin_append_singleton :
    ∀ (xs : List String) (y : String), xs ≠ [] →
      pyJoin (xs ++ [y]) = pyJoin xs ++ " " ++ y
  | [], _, h => absurd rfl h
  | [x], y, _ => rfl
  | x :: x' :: xs, y, _ => by
    have ih := pyJoin_append_singleton (x' :: xs) y (by simp)
    show pyJoin (x :: ((x' :: xs) ++ [y])) = pyJoin (x :: x' :: xs) ++ " " ++ y
    rw [List.cons_append, pyJoin, ← List.cons_append, ih, pyJoin]
    simp [String.append_assoc]

theorem pyJoin_take_succ (ws : List WordTiming) (i : Nat) (h : i + 1 < ws.length) :
    pyJoin ((ws.take (i + 1 + 1)).map WordTiming.word) =
      pyJoin ((ws.take (i + 1)).map WordTiming.word) ++ " " ++ (ws.get ⟨i + 1, h⟩).word := by
  rw [List.take_succ, List.getElem?_eq_getElem h]
  simp only [Option.toList_some, List.map_append, List.map_cons, List.map_nil,
    List.get_eq_getElem]
  rw [pyJoin_append_singleton]
  intro hnil
  have hlen : ((ws.take (i + 1)).map WordTiming.word).length = 0 := by rw [hnil]; rfl
  rw [List.length_map, List.length_take] at hlen
  omega

/-- C8 counterexample: two one-word sentence groups under the typewriter
effect produce consecutive cues with texts `"hello"` then `"world"` — the
first is not a prefix of the second (the prefix growth restarts at each
group boundary), and the word counts do not grow. -/
theorem typewriter_not_prefix_across_groups :
    (effectCues "typewriter" [[⟨"hello", 0, 1⟩], [⟨"world", 2, 3⟩]] 5).map
        (fun cs => cs.map Cue.text) = some ["hello", "world"] ∧
    ¬ ("hello".data <+: "world".data) ∧
    (pySplit "hello").length = (pySplit "world").length := by
  refine ⟨by decide, by decide, by decide⟩

/-- C8 amended: *within one sentence group*, the text of each typewriter cue
is a strict prefix of the text of the next cue — the next text is the previous one
extended by a space and the next word, so it is longer and has the
previous one as a prefix.  The property does not hold across group
boundaries, where the prefix restarts with the new sentence. -/
theorem typewriter_prefix_within_group (ws : List WordTiming) (e : ℚ) (i : Nat)
    (h : i + 1 < ws.length) :
    ∃ a b w, (typewriterGroupCues ws e).get? i = some a ∧
      (typewriterGroupCues ws e).get? (i + 1) = some b ∧
      ws.get? (i + 1) = some w ∧
      b.text = a.text ++ " " ++ w.word ∧
      a.text.data <+: b.text.data ∧
      a.text.length < b.text.length := by
  have hi : i < ws.length := by omega
  have htext := pyJoin_take_succ ws i h
  refine ⟨_, _, ws.get ⟨i + 1, h⟩,
    by rw [typewriterGroupCues_get?, List.get?_eq_get hi]; rfl,
    by rw [typewriterGroupCues_get?, List.get?_eq_get h]; rfl,
    List.get?_eq_get h, ?_, ?_, ?_⟩
  · exact htext
  · dsimp only
    rw [htext, String.append_assoc]
    rw [String.data_append]
    exact List.prefix_append _ _
  · dsimp only
    rw [htext]
    simp only [String.length_append]
    have : 1 ≤ (" " : String).length := by decide
    omega

/-- C8 witness. -/
theorem typewriter_prefix_within_group_witness :
    (0 : Nat) + 1 < ([⟨"ab", 0, 1⟩, ⟨"cd", 2, 3⟩] : List WordTiming).length ∧
    ∃ a b w,
      (typewriterGroupCues [⟨"ab", 0, 1⟩, ⟨"cd", 2, 3⟩] 5).get? 0 = some a ∧
      (typewriterGroupCues [⟨"ab", 0, 1⟩, ⟨"cd", 2, 3⟩] 5).get? (0 + 1) = some b ∧
      ([⟨"ab", 0, 1⟩, ⟨"cd", 2, 3⟩] : List WordTiming).get? (0 + 1) = some w ∧
      b.text = a.text ++ " " ++ w.word ∧
      a.text.data <+: b.text.data ∧
      a.text.length < b.text.length :=
  ⟨by decide, typewriter_prefix_within_group [⟨"ab", 0, 1⟩, ⟨"cd", 2, 3⟩] 5 0 (by decide)⟩

/-! ## Claim C10: dialogue lines precede the `[Events]` header -/

theorem dialogueLine_length (c : Cue) : 12 ≤ (dialogueLine c).length := by
  unfold dialogueLine
  simp only [String.length_append]
  have h12 : ("Dialogue: 0," : String).length = 12 := by decide
  omega

theorem dialogueLine_ne_events (c : Cue) : dialogueLine c ≠ "[Events]" := by
  intro h
  have h1 := dialogueLine_length c
  rw [h] at h1
  have h2 : ("[Events]" : String).length = 8 := by decide
  omega

theorem events_notin_pre (cs : List Cue) :
    "[Events]" ∉ headerLines ++ cs.map dialogueLine := by
  intro h
  rcases List.mem_append.1 h with h | h
  · exact absurd h (by decide)
  · obtain ⟨c, _, hc⟩ := List.mem_map.1 h
    exact dialogueLine_ne_events c hc

theorem dialogueLine_marker (c : Cue) : "Dialogue".data <+: (dialogueLine c).data := by
  unfold dialogueLine
  simp only [String.data_append, List.append_assoc]
  exact (by decide : "Dialogue".data <+: "Dialogue: 0,".data).trans
    (List.prefix_append _ _)

/-- Any line beginning with `Dialogue` in a document of the form
`pre ++ ["[Events]", Format-line]` with `"[Events]" ∉ pre` sits strictly
before the `[Events]` line. -/
theorem dialogue_before_events_generic (pre : List String)
    (hpre : "[Events]" ∉ pre) (i j : Nat) (a : String)
    (hi : (pre ++ [eventsHeaderLine, eventsFormatLine]).get? i = some a)
    (ha : "Dialogue".data <+: a.data)
    (hj : (pre ++ [eventsHeaderLine, eventsFormatLine]).get? j = some "[Events]") :
    i < j := by
  have hjlen : pre.length ≤ j := by
    by_contra hlt
    push_neg at hlt
    rw [List.get?_append hlt] at hj
    exact hpre (List.get?_mem hj)
  have hilen : i < pre.length := by
    by_contra hge
    push_neg at hge
    rw [List.get?_append_right hge] at hi
    rcases hk : i - pre.length with _ | _ | k
    · rw [hk] at hi
      simp only [List.get?_cons_zero, Option.some.injEq] at hi
      subst hi
      exact absurd ha (by decide)
    · rw [hk] at hi
      simp only [List.get?_cons_succ, List.get?_cons_zero, Option.some.injEq] at hi
      subst hi
      exact absurd ha (by decide)
    · rw [hk] at hi
      simp at hi
  omega

/-- C10: in every document the synthesizer writes, each line that begins
with `Dialogue` sits strictly before the line `[Events]` (the source
appends the `[Events]` header and its `Format:` line only *after* all
cues, src/main.py:411), and the placeholder document written for an empty
word-timing list contains no `[Events]` line at all (the source returns
early at src/main.py:280). -/
theorem document_dialogue_before_events (wts : List WordTiming) (effect : String)
    (sgroups : List (List WordTiming)) (doc : List String)
    (h : assDocumentLines wts effect sgroups = some doc) :
    (∀ i j a, doc.get? i = some a → "Dialogue".data <+: a.data →
      doc.get? j = some "[Events]" → i < j) ∧
    (wts = [] → "[Events]" ∉ doc) := by
  unfold assDocumentLines at h
  split_ifs at h with hemp hsg
  · simp only [Option.some.injEq] at h
    subst h
    constructor
    · intro i j a _ _ hj
      exact absurd (List.get?_mem hj) (by decide)
    · intro _
      decide
  · simp only [Option.some.injEq] at h
    subst h
    constructor
    · intro i j a hi ha hj
      exact dialogue_before_events_generic _ (events_notin_pre _) i j a hi ha hj
    · intro hw
      rw [hw] at hemp
      simp at hemp
  · obtain ⟨cues, _, hdoc⟩ := Option.map_eq_some'.1 h
    subst hdoc
    constructor
    · intro i j a hi ha hj
      exact dialogue_before_events_generic _ (events_notin_pre _) i j a hi ha hj
    · intro hw
      rw [hw] at hemp
      simp at hemp

/-- C10 witness. -/
theorem document_dialogue_before_events_witness :
    (11 : Nat) < 12 ∧ "[Events]" ∉ headerLines ++ [placeholderLine] := by
  have hv : videoEnd [⟨"hi", 0, 1⟩] = 3 := by norm_num [videoEnd]
  have hcues : effectCues "karaoke" [[⟨"hi", 0, 1⟩]] 3 =
      some [⟨0, 3, karaokeText [⟨"hi", 0, 1⟩] 0⟩] := by decide
  have hdoc : assDocumentLines [⟨"hi", 0, 1⟩] "karaoke" [[⟨"hi", 0, 1⟩]] =
      some (headerLines ++ [(⟨0, 3, karaokeText [⟨"hi", 0, 1⟩] 0⟩ : Cue)].map dialogueLine
        ++ [eventsHeaderLine, eventsFormatLine]) := by
    unfold assDocumentLines
    rw [if_neg (by decide), if_neg (by decide), hv, hcues]
    rfl
  constructor
  · apply (document_dialogue_before_events [⟨"hi", 0, 1⟩] "karaoke" [[⟨"hi", 0, 1⟩]]
      _ hdoc).1 11 12 (dialogueLine ⟨0, 3, karaokeText [⟨"hi", 0, 1⟩] 0⟩)
    · rw [List.get?_append (by decide : 11 < (headerLines ++
        [(⟨0, 3, karaokeText [⟨"hi", 0, 1⟩] 0⟩ : Cue)].map dialogueLine).length),
        List.get?_append_right (by decide : headerLines.length ≤ 11)]
      rfl
    · exact dialogueLine_marker _
    · rw [List.get?_append_right (by decide : (headerLines ++
        [(⟨0, 3, karaokeText [⟨"hi", 0, 1⟩] 0⟩ : Cue)].map dialogueLine).length ≤ 12)]
      rfl
  · exact (document_dialogue_before_events [] "karaoke" [] _ rfl).2 rfl

end ShortVideo
